import Mathlib

/-!
# Verification of the playback-queue and cache core of a music-player app

Shallow embedding of the client-side state core of a media-playback
application: the pure queue-engine algorithms (`src/utils/queue.js`), the
AsyncStorage-backed cache manager (`src/services/cache.js`), the playback
session controller (`src/contexts/PlayerContext.js`) and the recently-played
history (`src/contexts/UserContext.js`).

Conventions of the embedding:
* JavaScript arrays become `List`; element values are an abstract type `α`
  (or `Nat` where a concrete carrier is needed).
* Timestamps (`Date.now()` values) are `Int`, sizes are `Nat`.
* `Math.random()`-driven choices are a parameter `rand : Nat → Nat`;
  `floor(Math.random() * (i + 1))` is modelled as `rand i % (i + 1)`, which
  ranges over exactly the values the source expression can take.
* The asynchronous AsyncStorage store is an association list passed and
  returned explicitly; a fallible write takes a `Bool` telling whether the
  underlying `setItem` succeeds, and a thrown exception is `Except.error`.
* JavaScript's `Array.prototype.sort` is stable (ECMA-262); a stable sort
  with comparator `(a, b) => a.lastAccessed - b.lastAccessed` is embedded as
  `List.insertionSort` on `lastAccessed ≤`, which is stable and therefore
  produces the identical ordering.
-/

namespace MusicApp

/-! ## Queue engine (`src/utils/queue.js`) -/

/-- Repeat modes, from `REPEAT_MODE` in `src/config/constants.js`:
`'off' | 'all' | 'one'`. -/
inductive RepeatMode where
  | off
  | one
  | all
deriving DecidableEq, Repr

/-- Embedding of `getNextIndex(currentIndex, queueLength, repeatMode)` from
`src/utils/queue.js`: `null` for an empty queue; same index under repeat-one;
at (or past) the last index, wrap to `0` under repeat-all, else `null`;
otherwise `currentIndex + 1`. -/
def getNextIndex (currentIndex : Int) (queueLength : Nat) (repeatMode : RepeatMode) :
    Option Int :=
  if queueLength = 0 then none
  else if repeatMode = .one then some currentIndex
  else if currentIndex ≥ (queueLength : Int) - 1 then
    if repeatMode = .all then some 0 else none
  else some (currentIndex + 1)

/-- Embedding of `getPreviousIndex(currentIndex, queueLength, repeatMode)` from
`src/utils/queue.js`: symmetric to `getNextIndex`. -/
def getPreviousIndex (currentIndex : Int) (queueLength : Nat) (repeatMode : RepeatMode) :
    Option Int :=
  if queueLength = 0 then none
  else if repeatMode = .one then some currentIndex
  else if currentIndex ≤ 0 then
    if repeatMode = .all then some ((queueLength : Int) - 1) else none
  else some (currentIndex - 1)

/-- The destructuring swap `[a[i], a[j]] = [a[j], a[i]]` inside the shuffle
loop of `src/utils/queue.js`. Out-of-range indices leave the list unchanged
(the loop only ever produces in-range indices). -/
def swapInPlace (l : List α) (i j : Nat) : List α :=
  if h : i < l.length ∧ j < l.length then
    (l.set i (l.get ⟨j, h.2⟩)).set j (l.get ⟨i, h.1⟩)
  else l

/-- The Fisher-Yates loop
`for (let i = n - 1; i > 0; i--) { j = floor(random() * (i + 1)); swap i j }`
of `shuffle` in `src/utils/queue.js`, with `floor(Math.random() * (i + 1))`
modelled as `rand i % (i + 1)`. The fuel argument is the loop variable `i`. -/
def fisherYatesLoop (rand : Nat → Nat) : Nat → List α → List α
  | 0, l => l
  | i + 1, l => fisherYatesLoop rand i (swapInPlace l (i + 1) (rand (i + 1) % (i + 2)))

/-- Embedding of `shuffle(array)` from `src/utils/queue.js`: copies the array and runs the
Fisher-Yates loop from index `length - 1` down to `1`. -/
def shuffle (rand : Nat → Nat) (l : List α) : List α :=
  fisherYatesLoop rand (l.length - 1) l

/-- The index-based filter idiom `arr.filter((_, i) => i !== idx)` used by
`createQueue` (for `otherTracks`) and by `removeFromQueue` in
`src/utils/queue.js`. -/
def filterIdxNe (l : List α) (idx : Nat) : List α :=
  (l.enum.filter (fun p => p.1 != idx)).map Prod.snd

/-- Result shape `{queue, startIndex}` of `createQueue`. -/
structure CreateQueueResult (α : Type) where
  queue : List α
  startIndex : Nat
deriving DecidableEq, Repr

/-- Embedding of `createQueue(tracks, startIndex, shouldShuffle)` from `src/utils/queue.js`.
With shuffling the element at `startIndex` is pinned first and the rest are
shuffled; without, the input is copied and `startIndex` passed through. The
out-of-range shuffle case (where the JS source would place an `undefined`
slot first) is modelled as shuffling the whole list; no claim touches it. -/
def createQueue (tracks : List α) (startIndex : Nat) (shouldShuffle : Bool)
    (rand : Nat → Nat) : CreateQueueResult α :=
  if shouldShuffle then
    match tracks.get? startIndex with
    | some startTrack =>
        ⟨startTrack :: shuffle rand (filterIdxNe tracks startIndex), 0⟩
    | none => ⟨shuffle rand tracks, 0⟩
  else ⟨tracks, startIndex⟩

/-- Embedding of `insertIntoQueue(currentQueue, tracksToAdd, position)` from
`src/utils/queue.js`: `splice(position, 0, ...tracksToAdd)` on a copy, i.e.
the elements before `position`, then the new tracks, then the rest (positions
past the end clamp to appending, as `splice` does). -/
def insertIntoQueue (currentQueue tracksToAdd : List α) (position : Nat) : List α :=
  currentQueue.take position ++ tracksToAdd ++ currentQueue.drop position

/-- Embedding of `addToQueue(currentQueue, tracksToAdd)` from `src/utils/queue.js`. -/
def addToQueue (currentQueue tracksToAdd : List α) : List α :=
  currentQueue ++ tracksToAdd

/-- Embedding of `removeFromQueue(currentQueue, index)` from `src/utils/queue.js`:
`currentQueue.filter((_, i) => i !== index)`. -/
def removeFromQueue (currentQueue : List α) (index : Nat) : List α :=
  filterIdxNe currentQueue index

/-- Iterated removal: `n` successive calls of `removeFromQueue` at the same position `p`. -/
def removeNFromQueue (p : Nat) : Nat → List α → List α
  | 0, q => q
  | n + 1, q => removeNFromQueue p n (removeFromQueue q p)

/-! ## Cache manager (`src/services/cache.js`)

The AsyncStorage substrate is an association list from keys to stored cache
entries; keys are abstracted to `Nat` (the string-pattern-derived `type` tag
of the source is used only for reporting and appears in no claim, so it is
omitted from the entry record). `Date.now()` values are `Int`, `Blob` sizes
are `Nat`, and the payload is abstracted to `Nat`. A fallible underlying
write takes a `Bool` saying whether `AsyncStorage.setItem` succeeds; a thrown
JavaScript error is `Except.error ()`. -/

/-- The `{data, timestamp, lastAccessed, size}` record written by
`storeCachedData` in `src/services/cache.js`. -/
structure StoredEntry where
  data : Nat
  timestamp : Int
  lastAccessed : Int
  size : Nat
deriving DecidableEq, Repr

/-- The AsyncStorage key-value store, restricted to the cache entries. -/
abbrev Store := List (Nat × StoredEntry)

/-- Write of `AsyncStorage.setItem`: upsert of a key. -/
def storeSet (store : Store) (key : Nat) (v : StoredEntry) : Store :=
  (key, v) :: store.filter (fun p => p.1 != key)

/-- Embedding of `getData(key)` from `src/services/cache.js`: read and parse, `null` when
absent. -/
def getData (store : Store) (key : Nat) : Option StoredEntry :=
  (store.find? (fun p => p.1 == key)).map Prod.snd

/-- Embedding of `removeData(key)` from `src/services/cache.js`. -/
def removeData (store : Store) (key : Nat) : Store :=
  store.filter (fun p => p.1 != key)

/-- Embedding of `storeData(key, value)` from `src/services/cache.js`: serializes and
writes; on an underlying failure it logs and rethrows, which the embedding
renders as `Except.error ()`. `ok` is the outcome of the underlying
`AsyncStorage.setItem`. -/
def storeData (store : Store) (key : Nat) (v : StoredEntry) (ok : Bool) :
    Except Unit Store :=
  if ok then .ok (storeSet store key v) else .error ()

/-- Embedding of `storeCachedData(key, value)` from `src/services/cache.js`: wraps the
payload as `{data, timestamp: now, lastAccessed: now, size}` and delegates to
`storeData`; its `catch` block logs and rethrows, so a failure propagates
unchanged. `size` stands for `new Blob([JSON.stringify(value)]).size`. -/
def storeCachedData (store : Store) (key : Nat) (value : Nat) (now : Int)
    (size : Nat) (ok : Bool) : Except Unit Store :=
  storeData store key { data := value, timestamp := now, lastAccessed := now, size := size } ok

/-- Embedding of `getCachedData(key, ttl)` from `src/services/cache.js`: miss when absent;
when `now - timestamp < ttl`, update `lastAccessed` to `now` (best-effort:
a failed write of the touched entry is swallowed) and return the payload;
otherwise delete the entry and miss. `touchOk` is the outcome of the
best-effort access-time write. -/
def getCachedData (store : Store) (key : Nat) (ttl now : Int) (touchOk : Bool) :
    Option Nat × Store :=
  match getData store key with
  | none => (none, store)
  | some cd =>
      if now - cd.timestamp < ttl then
        match storeData store key { cd with lastAccessed := now } touchOk with
        | .ok st => (some cd.data, st)
        | .error _ => (some cd.data, store)
      else (none, removeData store key)

/-! ### LRU eviction (`evictLRUCache` in `src/services/cache.js`)

`getCacheInventory` yields `{key, size, lastAccessed, timestamp}` records;
eviction works on that inventory and deletes store keys, so it is embedded
as a function from an inventory to the eviction result plus the surviving
inventory. `Array.prototype.sort` with comparator
`(a, b) => a.lastAccessed - b.lastAccessed` is stable (ECMA-262), which is
exactly `List.insertionSort` on `lastAccessed ≤`. -/

/-- One record of the cache inventory. -/
structure InventoryEntry where
  key : Nat
  size : Nat
  lastAccessed : Int
  timestamp : Int
deriving DecidableEq, Repr

/-- Byte total `inventory.reduce((sum, entry) => sum + entry.size, 0)`, used both for
`currentSize` and (over the evicted entries) for the accumulated
`freedBytes`. -/
def totalSize (inv : List InventoryEntry) : Nat :=
  (inv.map (·.size)).sum

/-- The sort order of `evictableEntries.sort((a, b) => a.lastAccessed - b.lastAccessed)`. -/
def lruLE (a b : InventoryEntry) : Prop :=
  a.lastAccessed ≤ b.lastAccessed

instance : DecidableRel lruLE := fun a b =>
  inferInstanceAs (Decidable (a.lastAccessed ≤ b.lastAccessed))

instance : IsTotal InventoryEntry lruLE :=
  ⟨fun a b => Int.le_total a.lastAccessed b.lastAccessed⟩

instance : IsTrans InventoryEntry lruLE :=
  ⟨fun _ _ _ hab hbc => Int.le_trans hab hbc⟩

/-- Partition step `inventory.filter(entry => !protectedKeys.includes(entry.key))`. -/
def evictableOf (inv : List InventoryEntry) (protectedKeys : List Nat) :
    List InventoryEntry :=
  inv.filter (fun e => !(protectedKeys.contains e.key))

/-- The stable ascending sort by `lastAccessed` (oldest-accessed first). -/
def sortByLastAccessed (l : List InventoryEntry) : List InventoryEntry :=
  List.insertionSort lruLE l

/-- The eviction loop: walk the sorted evictable entries, deleting each one
and decrementing `sizeToFree` by its size, breaking once `sizeToFree ≤ 0`;
returns the entries actually deleted, in deletion order. -/
def evictTake (sizeToFree : Int) : List InventoryEntry → List InventoryEntry
  | [] => []
  | e :: rest =>
      if sizeToFree ≤ 0 then []
      else e :: evictTake (sizeToFree - (e.size : Int)) rest

/-- The `{evictedCount, freedBytes}` result of `evictLRUCache`. -/
structure EvictResult where
  evictedCount : Nat
  freedBytes : Nat
deriving DecidableEq, Repr

/-- Embedding of `evictLRUCache(maxSizeBytes, protectedKeys)` from `src/services/cache.js`:
no-op at or under budget; otherwise sorts the unprotected inventory by
`lastAccessed` ascending and deletes entries until `sizeToFree ≤ 0` or the
evictable entries are exhausted. Returns the result and the surviving
inventory (the inventory minus the deleted keys). -/
def evictLRUCache (inv : List InventoryEntry) (maxSizeBytes : Nat)
    (protectedKeys : List Nat) : EvictResult × List InventoryEntry :=
  let currentSize := totalSize inv
  if currentSize ≤ maxSizeBytes then (⟨0, 0⟩, inv)
  else
    let sorted := sortByLastAccessed (evictableOf inv protectedKeys)
    let removed := evictTake ((currentSize : Int) - (maxSizeBytes : Int)) sorted
    (⟨removed.length, totalSize removed⟩,
      inv.filter (fun e => !((removed.map (·.key)).contains e.key)))

/-- The entries `evictLRUCache` deletes (in deletion order) when the cache is
over budget. -/
def evictRemoved (inv : List InventoryEntry) (maxSizeBytes : Nat)
    (protectedKeys : List Nat) : List InventoryEntry :=
  evictTake ((totalSize inv : Int) - (maxSizeBytes : Int))
    (sortByLastAccessed (evictableOf inv protectedKeys))

/-- The inventory surviving an over-budget `evictLRUCache` call. -/
def evictSurvivors (inv : List InventoryEntry) (maxSizeBytes : Nat)
    (protectedKeys : List Nat) : List InventoryEntry :=
  inv.filter (fun e =>
    !(((evictRemoved inv maxSizeBytes protectedKeys).map (·.key)).contains e.key))

/-! ## Playback session (`src/contexts/PlayerContext.js`)

The provider's React state is a record; each operation is embedded as a pure
state transformer on the success path of the transport (the async transport
and URI resolution carry no queue/index/track information, which is all that
the session claims are about). Tracks are abstracted to `Nat`. `queueIndex`
is `Int`, as JavaScript arithmetic on it could in principle leave `Nat`
range; positions and durations (seconds) are `Int`. -/

/-- The playback session state held by `PlayerProvider`. -/
structure PlayerState where
  currentTrack : Option Nat
  queue : List Nat
  queueIndex : Int
  isPlaying : Bool
  isLoading : Bool
  position : Int
  duration : Int
  repeatMode : RepeatMode
  shuffleEnabled : Bool
deriving DecidableEq, Repr

/-- Embedding of `pause()`: stops the player and progress polling, clears `isPlaying`. -/
def pausePlayback (s : PlayerState) : PlayerState :=
  { s with isPlaying := false }

/-- Embedding of `seek(seconds)`: repositions the transport and optimistically updates
`position`. -/
def seekTo (s : PlayerState) (seconds : Int) : PlayerState :=
  { s with position := seconds }

/-- Embedding of `loadTrack(track)` (success path): resolves and opens the source, sets
the current track, resets `position` to 0, starts playing; `isLoading` is
raised and then cleared by the `finally` block. -/
def loadTrack (s : PlayerState) (track : Nat) : PlayerState :=
  { s with currentTrack := some track, position := 0, isPlaying := true, isLoading := false }

/-- Embedding of `playTrackAtIndex(index)`: silently ignores an out-of-range index,
otherwise sets `queueIndex` and loads the track at that position. -/
def playTrackAtIndex (s : PlayerState) (index : Int) : PlayerState :=
  if h : 0 ≤ index ∧ index < (s.queue.length : Int) then
    loadTrack { s with queueIndex := index } (s.queue.get ⟨index.toNat, by omega⟩)
  else s

/-- Embedding of `next()`: resolve the next index through the queue engine and play it;
no-op when the queue is exhausted. -/
def nextTrack (s : PlayerState) : PlayerState :=
  match getNextIndex s.queueIndex s.queue.length s.repeatMode with
  | some i => playTrackAtIndex s i
  | none => s

/-- Embedding of `previous()`: more than 3 seconds in, restart the current track;
otherwise resolve the previous index and play it; no-op when unavailable. -/
def previousTrack (s : PlayerState) : PlayerState :=
  if s.position > 3 then seekTo s 0
  else
    match getPreviousIndex s.queueIndex s.queue.length s.repeatMode with
    | some i => playTrackAtIndex s i
    | none => s

/-- Embedding of `setQueue(tracks, startIndex)` (`setQueueAndPlay` in the source): builds
a queue with the current shuffle flag, replaces queue and index, then plays
at the resulting start index. -/
def setQueueAndPlay (s : PlayerState) (tracks : List Nat) (startIndex : Nat)
    (rand : Nat → Nat) : PlayerState :=
  let c := createQueue tracks startIndex s.shuffleEnabled rand
  playTrackAtIndex { s with queue := c.queue, queueIndex := (c.startIndex : Int) }
    (c.startIndex : Int)

/-- Embedding of `removeFromQueue(index)` of `PlayerContext` (not the pure queue util):
filters the track out of the queue, decrements `queueIndex` when an earlier
index was removed, and pauses when the current track itself was removed. -/
def sessionRemoveFromQueue (s : PlayerState) (index : Nat) : PlayerState :=
  let s1 := { s with queue := removeFromQueue s.queue index }
  if (index : Int) < s.queueIndex then { s1 with queueIndex := s.queueIndex - 1 }
  else if (index : Int) = s.queueIndex then pausePlayback s1
  else s1

/-- Embedding of `clearQueue()`: pauses, empties the queue, resets the index and the
current track. -/
def clearQueueSession (s : PlayerState) : PlayerState :=
  { pausePlayback s with queue := [], queueIndex := 0, currentTrack := none }

/-- The queue/index invariant of the spec's data model: while the queue is
non-empty, `currentIndex` is a valid index into it; an empty queue has no
current track. -/
def queueInvariant (s : PlayerState) : Prop :=
  (s.queue ≠ [] → 0 ≤ s.queueIndex ∧ s.queueIndex < (s.queue.length : Int)) ∧
  (s.queue = [] → s.currentTrack = none)

instance (s : PlayerState) : Decidable (queueInvariant s) := by
  unfold queueInvariant
  infer_instance

/-! ## Recently-played history (`addToRecentlyPlayed` in
`src/contexts/UserContext.js`)

A history entry spreads the played track and stamps `played_at` (the
source's ISO string; embedded as the `Int` timestamp it encodes). Track
payload fields other than the identity are abstracted to one `title`
field. -/

/-- Constant `PLAYER_CONFIG.MAX_RECENT_TRACKS` from `src/config/constants.js`. -/
def MAX_RECENT_TRACKS : Nat := 50

/-- A recently-played entry: the track (identity `track_id`, remaining
payload abstracted as `title`) plus the `played_at` stamp. -/
structure RecentTrack where
  track_id : Nat
  title : Nat
  played_at : Int
deriving DecidableEq, Repr

/-- Embedding of `addToRecentlyPlayed(track)` from `src/contexts/UserContext.js`: drop
any entry with the same `track_id`, prepend `{...track, played_at: now}`,
keep only the first `MAX_RECENT_TRACKS` entries. -/
def addToRecentlyPlayed (recentlyPlayed : List RecentTrack) (track : RecentTrack)
    (now : Int) : List RecentTrack :=
  ({ track with played_at := now } ::
    recentlyPlayed.filter (fun t => t.track_id != track.track_id)).take MAX_RECENT_TRACKS

/-- The history is most-recent-first: later `played_at` stamps come
earlier. -/
def recentOrder (a b : RecentTrack) : Prop :=
  b.played_at ≤ a.played_at

instance : DecidableRel recentOrder := fun a b =>
  inferInstanceAs (Decidable (b.played_at ≤ a.played_at))

/-! ## Verified properties -/

/-- C5: `getNextIndex` / `getPreviousIndex` implement the spec's index
resolution: empty queue gives none; repeat-one returns the current index; at
the boundary index the result wraps under repeat-all and is none otherwise;
in the interior the index moves by one. Stated for a valid current index
`0 ≤ i < n`. -/
theorem nextPrevIndex_spec (i : Int) (n : Nat) (m : RepeatMode)
    (h0 : 0 ≤ i) (h1 : i < (n : Int)) :
    (getNextIndex i 0 m = none) ∧
    (getNextIndex i n .one = some i) ∧
    (m ≠ .one → i = (n : Int) - 1 →
      getNextIndex i n m = if m = .all then some 0 else none) ∧
    (m ≠ .one → i < (n : Int) - 1 → getNextIndex i n m = some (i + 1)) ∧
    (getPreviousIndex i 0 m = none) ∧
    (getPreviousIndex i n .one = some i) ∧
    (m ≠ .one → i = 0 →
      getPreviousIndex i n m = if m = .all then some ((n : Int) - 1) else none) ∧
    (m ≠ .one → 0 < i → getPreviousIndex i n m = some (i - 1)) := by
  have hn : n ≠ 0 := by
    rintro rfl
    exact absurd h1 (by omega)
  refine ⟨by simp [getNextIndex], ?_, ?_, ?_, by simp [getPreviousIndex], ?_, ?_, ?_⟩
  · simp [getNextIndex, hn]
  · intro hm he
    simp [getNextIndex, hn, hm, he]
  · intro hm hlt
    have : ¬ i ≥ (n : Int) - 1 := by omega
    simp [getNextIndex, hn, hm, this]
  · simp [getPreviousIndex, hn]
  · intro hm he
    simp [getPreviousIndex, hn, hm, he]
  · intro hm hpos
    have : ¬ i ≤ 0 := by omega
    simp [getPreviousIndex, hn, hm, this]

/-- Witness for C5 at `i = 1`, `n = 3`: all eight cases evaluated concretely
(e.g. `getNextIndex 1 3 .off = some 2`, `getPreviousIndex 1 3 .all = some 0`). -/
theorem nextPrevIndex_spec_witness :
    (0 ≤ (1 : Int) ∧ (1 : Int) < (3 : Nat)) ∧
    ((getNextIndex 1 0 .off = none) ∧
    (getNextIndex 1 3 .one = some 1) ∧
    (RepeatMode.off ≠ .one → (1 : Int) = (3 : Nat) - 1 →
      getNextIndex 1 3 .off = if RepeatMode.off = .all then some 0 else none) ∧
    (RepeatMode.off ≠ .one → (1 : Int) < (3 : Nat) - 1 → getNextIndex 1 3 .off = some 2) ∧
    (getPreviousIndex 1 0 .off = none) ∧
    (getPreviousIndex 1 3 .one = some 1) ∧
    (RepeatMode.off ≠ .one → (1 : Int) = 0 →
      getPreviousIndex 1 3 .off = if RepeatMode.off = .all then some ((3 : Nat) - 1) else none) ∧
    (RepeatMode.off ≠ .one → 0 < (1 : Int) → getPreviousIndex 1 3 .off = some 0)) :=
  ⟨by decide, nextPrevIndex_spec 1 3 .off (by decide) (by decide)⟩

/-- Indices produced by `enumFrom n` are all at least `n`, so filtering out a
smaller index keeps everything. -/
theorem filter_enumFrom_of_lt (l : List α) (n m : Nat) (h : m < n) :
    ((List.enumFrom n l).filter (fun p => p.1 != m)).map Prod.snd = l := by
  induction l generalizing n with
  | nil => rfl
  | cons a l ih =>
      have hne : (n != m) = true := by simp; omega
      simp [List.enumFrom_cons, List.filter_cons, hne, ih (n + 1) (by omega)]

/-- Filtering `enumFrom n` down by index `n + idx` erases position `idx`. -/
theorem filter_enumFrom_eq_eraseIdx (l : List α) (n idx : Nat) :
    ((List.enumFrom n l).filter (fun p => p.1 != n + idx)).map Prod.snd = l.eraseIdx idx := by
  induction l generalizing n idx with
  | nil => rfl
  | cons a l ih =>
      cases idx with
      | zero =>
          simp only [List.enumFrom_cons, List.filter_cons, Nat.add_zero, bne_self_eq_false,
            Bool.false_eq_true, if_false, List.eraseIdx]
          exact filter_enumFrom_of_lt l (n + 1) n (by omega)
      | succ k =>
          have harith : n + (k + 1) = (n + 1) + k := by omega
          have hne : (n != n + 1 + k) = true := by simp; omega
          simp only [List.enumFrom_cons, List.filter_cons, harith, hne, if_true, List.map_cons,
            List.eraseIdx, List.cons.injEq, true_and]
          exact ih (n + 1) k

/-- Filtering out one index is exactly `List.eraseIdx`. -/
theorem filterIdxNe_eq_eraseIdx (l : List α) (idx : Nat) :
    filterIdxNe l idx = l.eraseIdx idx := by
  have := filter_enumFrom_eq_eraseIdx l 0 idx
  simpa [filterIdxNe, List.enum] using this

/-- Moving the element at position `k` to the front while writing `a` into
its old slot is, up to permutation, the same as putting `a` in front. -/
theorem get_cons_set_perm (t : List α) (k : Nat) (hk : k < t.length) (a : α) :
    List.Perm (t.get ⟨k, hk⟩ :: t.set k a) (a :: t) := by
  induction t generalizing k with
  | nil => exact absurd hk (by simp)
  | cons b t ih =>
      cases k with
      | zero => exact List.Perm.swap a b t
      | succ k =>
          have hk' : k < t.length := by simpa using hk
          exact ((List.Perm.swap b _ _).trans ((ih k hk').cons b)).trans
            (List.Perm.swap a b t)

/-- A two-position element swap is a permutation. -/
theorem set_set_perm (l : List α) (i j : Nat) (hi : i < l.length) (hj : j < l.length) :
    List.Perm ((l.set i (l.get ⟨j, hj⟩)).set j (l.get ⟨i, hi⟩)) l := by
  induction l generalizing i j with
  | nil => exact absurd hi (by simp)
  | cons a t ih =>
      cases i with
      | zero =>
          cases j with
          | zero => exact List.Perm.refl _
          | succ k =>
              have hk : k < t.length := by simpa using hj
              simpa using get_cons_set_perm t k hk a
      | succ m =>
          have hm : m < t.length := by simpa using hi
          cases j with
          | zero => simpa using get_cons_set_perm t m hm a
          | succ k =>
              have hk : k < t.length := by simpa using hj
              simpa using (ih m k hm hk).cons a

/-- Swapping two positions permutes the list. -/
theorem swapInPlace_perm (l : List α) (i j : Nat) : List.Perm (swapInPlace l i j) l := by
  unfold swapInPlace
  split
  · next h => exact set_set_perm l i j h.1 h.2
  · exact List.Perm.refl _

/-- Every pass of the Fisher-Yates loop permutes the list. -/
theorem fisherYatesLoop_perm (rand : Nat → Nat) (n : Nat) (l : List α) :
    List.Perm (fisherYatesLoop rand n l) l := by
  induction n generalizing l with
  | zero => exact List.Perm.refl _
  | succ i ih =>
      exact (ih _).trans (swapInPlace_perm l (i + 1) (rand (i + 1) % (i + 2)))

/-- Shuffling returns a permutation of the input. -/
theorem shuffle_perm (rand : Nat → Nat) (l : List α) : List.Perm (shuffle rand l) l :=
  fisherYatesLoop_perm rand (l.length - 1) l

/-- C6: for a valid `startIndex`, `createQueue` with shuffling pins the track
originally at `startIndex` to position 0, the remaining elements are the same
multiset as the other input tracks, and the returned `startIndex` is `0`;
without shuffling it returns the input list (Lean lists are immutable, so the
source's non-mutation of its input is inherent) with `startIndex` unchanged. -/
theorem createQueue_spec {α : Type} (tracks : List α) (startIndex : Nat) (rand : Nat → Nat)
    (h : startIndex < tracks.length) :
    (createQueue tracks startIndex true rand).queue.head? = tracks.get? startIndex ∧
    ((createQueue tracks startIndex true rand).queue.tail : Multiset α) =
      (tracks.eraseIdx startIndex : Multiset α) ∧
    (createQueue tracks startIndex true rand).startIndex = 0 ∧
    createQueue tracks startIndex false rand = ⟨tracks, startIndex⟩ := by
  have hget : tracks[startIndex]? = some tracks[startIndex] :=
    List.getElem?_eq_getElem h
  have hq : createQueue tracks startIndex true rand =
      ⟨tracks[startIndex] :: shuffle rand (filterIdxNe tracks startIndex), 0⟩ := by
    simp only [createQueue, if_true, List.get?_eq_getElem?]
    rw [hget]
  have hperm : List.Perm (shuffle rand (filterIdxNe tracks startIndex))
      (tracks.eraseIdx startIndex) := by
    rw [filterIdxNe_eq_eraseIdx]
    exact shuffle_perm rand _
  refine ⟨?_, ?_, ?_, rfl⟩
  · rw [hq, List.get?_eq_getElem?, hget]
    rfl
  · rw [hq]
    exact Quot.sound hperm
  · rw [hq]

/-- Witness for C6 with `tracks = [10, 20, 30]`, `startIndex = 1` and the
random stream constantly `0`: the shuffled queue is `[20, 30, 10]`, whose
head is the selected track `20`, whose tail `[30, 10]` is the multiset
`{10, 30}`, and whose returned start index is `0`. -/
theorem createQueue_spec_witness :
    ((1 : Nat) < ([10, 20, 30] : List Nat).length) ∧
    ((createQueue [10, 20, 30] 1 true (fun _ => 0)).queue.head? =
        ([10, 20, 30] : List Nat).get? 1 ∧
    ((createQueue [10, 20, 30] 1 true (fun _ => 0)).queue.tail : Multiset Nat) =
      (([10, 20, 30] : List Nat).eraseIdx 1 : Multiset Nat) ∧
    (createQueue [10, 20, 30] 1 true (fun _ => 0)).startIndex = 0 ∧
    createQueue [10, 20, 30] 1 false (fun _ => 0) = ⟨[10, 20, 30], 1⟩) :=
  ⟨by decide, createQueue_spec [10, 20, 30] 1 (fun _ => 0) (by decide)⟩

/-- Erasing exactly at the junction of an append removes the junction
element. -/
theorem eraseIdx_append_length (l₁ l₂ : List α) (x : α) :
    (l₁ ++ x :: l₂).eraseIdx l₁.length = l₁ ++ l₂ := by
  induction l₁ with
  | nil => rfl
  | cons a l ih => simp [List.eraseIdx, ih]

/-- C9: round-trip — removing `len(items)` elements at position `p` from
`insertIntoQueue Q items p` restores the original queue `Q`, for every valid
position `p ≤ len(Q)`; equality of lists gives content, order and element
identity, and both operations are pure Lean functions on immutable lists,
matching the source's copy-on-write `splice`/`filter`. -/
theorem insert_remove_roundTrip (Q items : List α) (p : Nat) (hp : p ≤ Q.length) :
    removeNFromQueue p items.length (insertIntoQueue Q items p) = Q := by
  induction items with
  | nil =>
      simp only [insertIntoQueue, List.nil_append, List.length_nil, removeNFromQueue]
      simp
  | cons x rest ih =>
      have hlen : (Q.take p).length = p := by
        simp [List.length_take, Nat.min_eq_left hp]
      have hstep : removeFromQueue (insertIntoQueue Q (x :: rest) p) p =
          insertIntoQueue Q rest p := by
        have herase := eraseIdx_append_length (Q.take p) (rest ++ Q.drop p) x
        rw [hlen] at herase
        rw [removeFromQueue, filterIdxNe_eq_eraseIdx, insertIntoQueue, insertIntoQueue]
        have hassoc : Q.take p ++ (x :: rest) ++ Q.drop p
            = Q.take p ++ x :: (rest ++ Q.drop p) := by simp
        rw [hassoc, herase, List.append_assoc]
      simp only [List.length_cons, removeNFromQueue, hstep]
      exact ih

/-- Witness for C9 with `Q = [1, 2, 3]`, `items = [7, 8]`, `p = 1`:
`insertIntoQueue` gives `[1, 7, 8, 2, 3]` and removing twice at position `1`
restores `[1, 2, 3]`. -/
theorem insert_remove_roundTrip_witness :
    ((1 : Nat) ≤ ([1, 2, 3] : List Nat).length) ∧
    removeNFromQueue 1 ([7, 8] : List Nat).length (insertIntoQueue [1, 2, 3] [7, 8] 1) =
      [1, 2, 3] :=
  ⟨by decide, insert_remove_roundTrip [1, 2, 3] [7, 8] 1 (by decide)⟩

/-- Counterexample to C4: `put` does throw to its caller when the underlying
store write fails — `storeCachedData` catches the failure, logs it and
rethrows (`throw error` in its catch block), here at the concrete input
key `0`, payload `0`, on a store write that fails. -/
theorem storeCachedData_throws_counterexample :
    storeCachedData [] 0 0 0 0 false = Except.error () := rfl

/-- C4 amended: `put(key, payload)` is not best-effort — when the underlying
Persistent Store write fails, `storeCachedData` logs and rethrows the error
to its caller; on success it writes the entry with fresh `createdAt` and
`lastAccessedAt` timestamps. -/
theorem storeCachedData_propagates (store : Store) (key value : Nat) (now : Int)
    (size : Nat) :
    storeCachedData store key value now size true =
      Except.ok (storeSet store key
        { data := value, timestamp := now, lastAccessed := now, size := size }) ∧
    storeCachedData store key value now size false = Except.error () :=
  ⟨rfl, rfl⟩

/-- C2: for a stored entry, a `get` at time `now` with `now - createdAt < ttl`
returns the payload as a hit and stores the entry with `lastAccessed = now`
(the updated entry is what a subsequent lookup of the key sees); a `get` with
`now - createdAt ≥ ttl` deletes the entry and returns a miss, after which the
key is absent from the store, so an expired payload is never returned. -/
theorem getCachedData_ttl (store : Store) (key : Nat) (ttl now : Int)
    (cd : StoredEntry) (hfound : getData store key = some cd) :
    (now - cd.timestamp < ttl →
      getCachedData store key ttl now true =
        (some cd.data, storeSet store key { cd with lastAccessed := now }) ∧
      getData (storeSet store key { cd with lastAccessed := now }) key =
        some { cd with lastAccessed := now }) ∧
    (ttl ≤ now - cd.timestamp →
      getCachedData store key ttl now true = (none, removeData store key) ∧
      getData (removeData store key) key = none ∧
      (removeData store key).all (fun p => p.1 != key) = true) := by
  constructor
  · intro hlive
    refine ⟨?_, ?_⟩
    · simp [getCachedData, hfound, hlive, storeData]
    · simp [getData, storeSet, List.find?]
  · intro hexp
    have hnot : ¬ (now - cd.timestamp < ttl) := by omega
    refine ⟨?_, ?_, ?_⟩
    · simp [getCachedData, hfound, hnot]
    · rw [getData, List.find?_eq_none.mpr]
      · rfl
      · intro p hp
        have := (List.mem_filter.mp hp).2
        simpa using this
    · rw [List.all_eq_true]
      intro p hp
      exact (List.mem_filter.mp hp).2

/-- Witness for C2 on the store `[(5, {data 77, createdAt 100, ...})]`: read
at `now = 120` with `ttl = 50` is a live hit (both sub-implications have their
antecedents decided concretely; the expired branch is vacuous here). -/
theorem getCachedData_ttl_witness :
    (getData [(5, ⟨77, 100, 100, 4⟩)] 5 = some ⟨77, 100, 100, 4⟩) ∧
    (((120 : Int) - (100 : Int) < 50 →
      getCachedData [(5, ⟨77, 100, 100, 4⟩)] 5 50 120 true =
        (some 77, storeSet [(5, ⟨77, 100, 100, 4⟩)] 5 ⟨77, 100, 120, 4⟩) ∧
      getData (storeSet [(5, ⟨77, 100, 100, 4⟩)] 5 ⟨77, 100, 120, 4⟩) 5 =
        some ⟨77, 100, 120, 4⟩) ∧
    ((50 : Int) ≤ (120 : Int) - (100 : Int) →
      getCachedData [(5, ⟨77, 100, 100, 4⟩)] 5 50 120 true =
        (none, removeData [(5, ⟨77, 100, 100, 4⟩)] 5) ∧
      getData (removeData [(5, ⟨77, 100, 100, 4⟩)] 5) 5 = none ∧
      (removeData [(5, ⟨77, 100, 100, 4⟩)] 5).all (fun p => p.1 != 5) = true)) :=
  ⟨by decide, getCachedData_ttl [(5, ⟨77, 100, 100, 4⟩)] 5 50 120 ⟨77, 100, 100, 4⟩ (by decide)⟩

/-- The eviction loop deletes an initial segment of the sorted list. -/
theorem evictTake_eq_take (sizeToFree : Int) (l : List InventoryEntry) :
    ∃ n, evictTake sizeToFree l = l.take n := by
  induction l generalizing sizeToFree with
  | nil => exact ⟨0, rfl⟩
  | cons e rest ih =>
      by_cases h : sizeToFree ≤ 0
      · exact ⟨0, by simp [evictTake, h]⟩
      · obtain ⟨n, hn⟩ := ih (sizeToFree - (e.size : Int))
        exact ⟨n + 1, by simp [evictTake, h, hn]⟩

/-- The eviction loop either exhausts the evictable list or frees at least
the requested number of bytes. -/
theorem evictTake_stop (sizeToFree : Int) (l : List InventoryEntry) :
    evictTake sizeToFree l = l ∨
      sizeToFree - (totalSize (evictTake sizeToFree l) : Int) ≤ 0 := by
  induction l generalizing sizeToFree with
  | nil => exact Or.inl rfl
  | cons e rest ih =>
      by_cases h : sizeToFree ≤ 0
      · right
        simp only [evictTake, h, if_true, totalSize, List.map_nil, List.sum_nil]
        omega
      · rcases ih (sizeToFree - (e.size : Int)) with heq | hle
        · left
          simp [evictTake, h, heq]
        · right
          simp only [evictTake, h, if_false, totalSize, List.map_cons, List.sum_cons] at *
          push_cast at *
          omega

/-- Before every single eviction the loop was still short of its goal: the
bytes freed by any proper prefix of the deletions leave `sizeToFree`
positive. -/
theorem evictTake_minimal (sizeToFree : Int) (l : List InventoryEntry) (n : Nat)
    (hn : n < (evictTake sizeToFree l).length) :
    0 < sizeToFree - (totalSize ((evictTake sizeToFree l).take n) : Int) := by
  induction l generalizing sizeToFree n with
  | nil => simp [evictTake] at hn
  | cons e rest ih =>
      by_cases h : sizeToFree ≤ 0
      · simp [evictTake, h] at hn
      · simp only [evictTake, h, if_false] at hn ⊢
        cases n with
        | zero =>
            simp only [List.take_zero, totalSize, List.map_nil, List.sum_nil]
            omega
        | succ m =>
            have hm : m < (evictTake (sizeToFree - (e.size : Int)) rest).length := by
              simpa using hn
            have := ih (sizeToFree - (e.size : Int)) m hm
            simp only [List.take_succ_cons, totalSize, List.map_cons, List.sum_cons] at *
            push_cast at *
            omega

/-- Stability of the stable ascending sort: for each access time `t`, the
entries with `lastAccessed = t` appear in the sorted list in exactly their
original relative order. -/
theorem sortByLastAccessed_stable (l : List InventoryEntry) (t : Int) :
    (sortByLastAccessed l).filter (fun e => e.lastAccessed == t) =
      l.filter (fun e => e.lastAccessed == t) := by
  induction l with
  | nil => rfl
  | cons a l ih =>
      have hto : List.insertionSort lruLE (a :: l) =
          ((List.insertionSort lruLE l).takeWhile (fun b => decide ¬ lruLE a b)) ++
            a :: (List.insertionSort lruLE l).dropWhile (fun b => decide ¬ lruLE a b) :=
        List.orderedInsert_eq_take_drop lruLE a _
      have hsplit : (List.insertionSort lruLE l).filter (fun e => e.lastAccessed == t) =
          ((List.insertionSort lruLE l).takeWhile (fun b => decide ¬ lruLE a b)).filter
              (fun e => e.lastAccessed == t) ++
            ((List.insertionSort lruLE l).dropWhile (fun b => decide ¬ lruLE a b)).filter
              (fun e => e.lastAccessed == t) := by
        rw [← List.filter_append, List.takeWhile_append_dropWhile]
      by_cases ha : a.lastAccessed = t
      · have htw : (((List.insertionSort lruLE l).takeWhile
            (fun b => decide ¬ lruLE a b)).filter (fun e => e.lastAccessed == t)) = [] := by
          rw [List.filter_eq_nil_iff]
          intro b hb
          have hb2 := List.mem_takeWhile_imp hb
          have : ¬ lruLE a b := by simpa using hb2
          have : b.lastAccessed < a.lastAccessed := by
            simp only [lruLE] at this
            omega
          simp only [beq_iff_eq]
          omega
        rw [sortByLastAccessed] at ih ⊢
        rw [hto, List.filter_append, htw, List.nil_append, List.filter_cons]
        rw [hsplit, htw, List.nil_append] at ih
        simp only [ha, beq_self_eq_true, if_true, List.filter_cons, ih]
      · have ha2 : (a.lastAccessed == t) = false := by simpa using ha
        rw [sortByLastAccessed] at ih ⊢
        rw [hto, List.filter_append, List.filter_cons, ha2]
        simp only [Bool.false_eq_true, if_false]
        rw [← List.filter_append, List.takeWhile_append_dropWhile, ih, List.filter_cons, ha2]
        simp

/-- Unfolding of the over-budget branch of `evictLRUCache`. -/
theorem evictLRUCache_over (inv : List InventoryEntry) (maxSizeBytes : Nat)
    (protectedKeys : List Nat) (h : maxSizeBytes < totalSize inv) :
    evictLRUCache inv maxSizeBytes protectedKeys =
      (⟨(evictRemoved inv maxSizeBytes protectedKeys).length,
          totalSize (evictRemoved inv maxSizeBytes protectedKeys)⟩,
        evictSurvivors inv maxSizeBytes protectedKeys) := by
  simp only [evictLRUCache]
  rw [if_neg (by omega)]
  rfl

/-- C1: over budget, `evictLRUCache` deletes exactly an initial segment of
the evictable (unprotected) inventory sorted ascending by `lastAccessedAt`
(ties kept in original inventory order — the stability conjunct), one whole
entry at a time (before each deletion the cache was still over budget —
the minimality conjunct), stopping as soon as
`currentSize − freedBytes ≤ maxTotalBytes` or the evictable set is
exhausted, and reports the count and bytes of the deleted entries. -/
theorem evictLRU_spec (inv : List InventoryEntry) (maxSizeBytes : Nat)
    (protectedKeys : List Nat) (h : maxSizeBytes < totalSize inv) :
    evictLRUCache inv maxSizeBytes protectedKeys =
      (⟨(evictRemoved inv maxSizeBytes protectedKeys).length,
          totalSize (evictRemoved inv maxSizeBytes protectedKeys)⟩,
        evictSurvivors inv maxSizeBytes protectedKeys) ∧
    (∃ n, evictRemoved inv maxSizeBytes protectedKeys =
      (sortByLastAccessed (evictableOf inv protectedKeys)).take n) ∧
    (evictRemoved inv maxSizeBytes protectedKeys).all
      (fun e => !(protectedKeys.contains e.key)) = true ∧
    List.Sorted lruLE (evictRemoved inv maxSizeBytes protectedKeys) ∧
    List.Perm (sortByLastAccessed (evictableOf inv protectedKeys))
      (evictableOf inv protectedKeys) ∧
    (∀ t : Int,
      (sortByLastAccessed (evictableOf inv protectedKeys)).filter
          (fun e => e.lastAccessed == t) =
        (evictableOf inv protectedKeys).filter (fun e => e.lastAccessed == t)) ∧
    ((totalSize inv : Int) - (totalSize (evictRemoved inv maxSizeBytes protectedKeys) : Int)
        ≤ (maxSizeBytes : Int) ∨
      evictRemoved inv maxSizeBytes protectedKeys =
        sortByLastAccessed (evictableOf inv protectedKeys)) ∧
    (∀ n, n < (evictRemoved inv maxSizeBytes protectedKeys).length →
      (maxSizeBytes : Int) < (totalSize inv : Int) -
        (totalSize ((evictRemoved inv maxSizeBytes protectedKeys).take n) : Int)) := by
  refine ⟨evictLRUCache_over inv maxSizeBytes protectedKeys h, ?_, ?_, ?_, ?_, ?_, ?_, ?_⟩
  · exact evictTake_eq_take _ _
  · rw [List.all_eq_true]
    intro e he
    obtain ⟨n, hn⟩ := evictTake_eq_take ((totalSize inv : Int) - (maxSizeBytes : Int))
      (sortByLastAccessed (evictableOf inv protectedKeys))
    rw [evictRemoved, hn] at he
    have hs : e ∈ sortByLastAccessed (evictableOf inv protectedKeys) :=
      List.take_subset n _ he
    have hm : e ∈ evictableOf inv protectedKeys := by
      rw [sortByLastAccessed] at hs
      exact (List.mem_insertionSort lruLE).mp hs
    exact (List.mem_filter.mp hm).2
  · obtain ⟨n, hn⟩ := evictTake_eq_take ((totalSize inv : Int) - (maxSizeBytes : Int))
      (sortByLastAccessed (evictableOf inv protectedKeys))
    rw [evictRemoved, hn]
    exact List.Pairwise.sublist (List.take_sublist n _)
      (List.sorted_insertionSort lruLE (evictableOf inv protectedKeys))
  · exact List.perm_insertionSort lruLE _
  · exact fun t => sortByLastAccessed_stable (evictableOf inv protectedKeys) t
  · rcases evictTake_stop ((totalSize inv : Int) - (maxSizeBytes : Int))
        (sortByLastAccessed (evictableOf inv protectedKeys)) with heq | hle
    · exact Or.inr heq
    · left
      rw [evictRemoved]
      omega
  · intro n hn
    have := evictTake_minimal ((totalSize inv : Int) - (maxSizeBytes : Int))
      (sortByLastAccessed (evictableOf inv protectedKeys)) n (by rwa [evictRemoved] at hn)
    rw [evictRemoved]
    omega

/-- Witness for C1 at the spec's concrete scenario: entries
`A (key 1, size 10, lastAccessed 1)`, `B (key 2, size 20, lastAccessed 2)`,
`C (key 3, size 5, lastAccessed 3)`, protected keys `[3]`,
`maxTotalBytes = 15`, total `35`: the call removes `A` then `B`, never `C`,
and returns `evictedCount = 2`, `freedBytes = 30`, leaving only `C`. -/
theorem evictLRU_spec_witness :
    ((15 : Nat) < totalSize [⟨1, 10, 1, 0⟩, ⟨2, 20, 2, 0⟩, ⟨3, 5, 3, 0⟩]) ∧
    (evictLRUCache [⟨1, 10, 1, 0⟩, ⟨2, 20, 2, 0⟩, ⟨3, 5, 3, 0⟩] 15 [3] =
      (⟨(evictRemoved [⟨1, 10, 1, 0⟩, ⟨2, 20, 2, 0⟩, ⟨3, 5, 3, 0⟩] 15 [3]).length,
          totalSize (evictRemoved [⟨1, 10, 1, 0⟩, ⟨2, 20, 2, 0⟩, ⟨3, 5, 3, 0⟩] 15 [3])⟩,
        evictSurvivors [⟨1, 10, 1, 0⟩, ⟨2, 20, 2, 0⟩, ⟨3, 5, 3, 0⟩] 15 [3]) ∧
    (∃ n, evictRemoved [⟨1, 10, 1, 0⟩, ⟨2, 20, 2, 0⟩, ⟨3, 5, 3, 0⟩] 15 [3] =
      (sortByLastAccessed
        (evictableOf [⟨1, 10, 1, 0⟩, ⟨2, 20, 2, 0⟩, ⟨3, 5, 3, 0⟩] [3])).take n) ∧
    (evictRemoved [⟨1, 10, 1, 0⟩, ⟨2, 20, 2, 0⟩, ⟨3, 5, 3, 0⟩] 15 [3]).all
      (fun e => !(([3] : List Nat).contains e.key)) = true ∧
    List.Sorted lruLE (evictRemoved [⟨1, 10, 1, 0⟩, ⟨2, 20, 2, 0⟩, ⟨3, 5, 3, 0⟩] 15 [3]) ∧
    List.Perm
      (sortByLastAccessed (evictableOf [⟨1, 10, 1, 0⟩, ⟨2, 20, 2, 0⟩, ⟨3, 5, 3, 0⟩] [3]))
      (evictableOf [⟨1, 10, 1, 0⟩, ⟨2, 20, 2, 0⟩, ⟨3, 5, 3, 0⟩] [3]) ∧
    (∀ t : Int,
      (sortByLastAccessed (evictableOf [⟨1, 10, 1, 0⟩, ⟨2, 20, 2, 0⟩, ⟨3, 5, 3, 0⟩] [3])).filter
          (fun e => e.lastAccessed == t) =
        (evictableOf [⟨1, 10, 1, 0⟩, ⟨2, 20, 2, 0⟩, ⟨3, 5, 3, 0⟩] [3]).filter
          (fun e => e.lastAccessed == t)) ∧
    ((totalSize [⟨1, 10, 1, 0⟩, ⟨2, 20, 2, 0⟩, ⟨3, 5, 3, 0⟩] : Int) -
        (totalSize (evictRemoved [⟨1, 10, 1, 0⟩, ⟨2, 20, 2, 0⟩, ⟨3, 5, 3, 0⟩] 15 [3]) : Int)
          ≤ (15 : Int) ∨
      evictRemoved [⟨1, 10, 1, 0⟩, ⟨2, 20, 2, 0⟩, ⟨3, 5, 3, 0⟩] 15 [3] =
        sortByLastAccessed (evictableOf [⟨1, 10, 1, 0⟩, ⟨2, 20, 2, 0⟩, ⟨3, 5, 3, 0⟩] [3])) ∧
    (∀ n, n < (evictRemoved [⟨1, 10, 1, 0⟩, ⟨2, 20, 2, 0⟩, ⟨3, 5, 3, 0⟩] 15 [3]).length →
      (15 : Int) < (totalSize [⟨1, 10, 1, 0⟩, ⟨2, 20, 2, 0⟩, ⟨3, 5, 3, 0⟩] : Int) -
        (totalSize ((evictRemoved [⟨1, 10, 1, 0⟩, ⟨2, 20, 2, 0⟩, ⟨3, 5, 3, 0⟩] 15 [3]).take n)
          : Int))) ∧
    evictLRUCache [⟨1, 10, 1, 0⟩, ⟨2, 20, 2, 0⟩, ⟨3, 5, 3, 0⟩] 15 [3] =
      (⟨2, 30⟩, [⟨3, 5, 3, 0⟩]) :=
  ⟨by decide, evictLRU_spec [⟨1, 10, 1, 0⟩, ⟨2, 20, 2, 0⟩, ⟨3, 5, 3, 0⟩] 15 [3] (by decide),
    by decide⟩

/-- Splitting the byte total over a partition of the inventory. -/
theorem totalSize_filter_add (p : InventoryEntry → Bool) (l : List InventoryEntry) :
    totalSize (l.filter p) + totalSize (l.filter (fun e => !(p e))) = totalSize l := by
  induction l with
  | nil => rfl
  | cons a l ih =>
      simp only [totalSize] at ih ⊢
      cases hp : p a <;>
        simp only [List.filter_cons, hp, Bool.not_true, Bool.not_false, if_true, if_false,
          Bool.false_eq_true, Bool.true_eq_false, List.map_cons, List.sum_cons] <;>
        omega

/-- Permuted inventories have the same byte total. -/
theorem totalSize_perm {l₁ l₂ : List InventoryEntry} (h : List.Perm l₁ l₂) :
    totalSize l₁ = totalSize l₂ := by
  rw [totalSize, totalSize]
  exact (h.map fun e => e.size).sum_eq

/-- On `Nat` keys, `List.contains` agrees with membership. -/
theorem natList_contains_iff (l : List Nat) (a : Nat) : l.contains a = true ↔ a ∈ l :=
  List.elem_iff

/-- The deleted entries are drawn from the inventory without repetition. -/
theorem evictRemoved_subperm (inv : List InventoryEntry) (maxSizeBytes : Nat)
    (protectedKeys : List Nat) :
    List.Subperm (evictRemoved inv maxSizeBytes protectedKeys) inv := by
  obtain ⟨n, hn⟩ := evictTake_eq_take ((totalSize inv : Int) - (maxSizeBytes : Int))
    (sortByLastAccessed (evictableOf inv protectedKeys))
  rw [evictRemoved, hn]
  exact ((List.take_sublist n _).subperm.trans
    (List.perm_insertionSort lruLE _).subperm).trans (List.filter_sublist inv).subperm

/-- With distinct inventory keys, the inventory entries whose key was deleted
are, up to order, exactly the deleted entries. -/
theorem filter_removedKeys_perm (inv : List InventoryEntry) (maxSizeBytes : Nat)
    (protectedKeys : List Nat) (hnodup : (inv.map (·.key)).Nodup) :
    List.Perm
      (inv.filter (fun e =>
        ((evictRemoved inv maxSizeBytes protectedKeys).map (·.key)).contains e.key))
      (evictRemoved inv maxSizeBytes protectedKeys) := by
  have hinvnodup : inv.Nodup := List.Nodup.of_map _ hnodup
  have hsub := evictRemoved_subperm inv maxSizeBytes protectedKeys
  have hremnodup : (evictRemoved inv maxSizeBytes protectedKeys).Nodup := by
    obtain ⟨l', hperm, hsublist⟩ := hsub
    exact hperm.nodup_iff.mp (hsublist.nodup hinvnodup)
  have hfilternodup : (inv.filter (fun e =>
      ((evictRemoved inv maxSizeBytes protectedKeys).map (·.key)).contains e.key)).Nodup :=
    (List.filter_sublist inv).nodup hinvnodup
  have hinj := List.inj_on_of_nodup_map hnodup
  rw [List.perm_ext_iff_of_nodup hfilternodup hremnodup]
  intro e
  constructor
  · intro he
    obtain ⟨hein, hkey⟩ := List.mem_filter.mp he
    obtain ⟨d, hd, hdk⟩ := List.mem_map.mp ((natList_contains_iff _ _).mp hkey)
    have hdin : d ∈ inv := hsub.subset hd
    have : d = e := hinj hdin hein hdk
    exact this ▸ hd
  · intro he
    refine List.mem_filter.mpr ⟨hsub.subset he, ?_⟩
    exact (natList_contains_iff _ _).mpr (List.mem_map_of_mem (·.key) he)

/-- Byte accounting of an over-budget eviction: the freed bytes plus the
surviving bytes are the original total. -/
theorem evict_totalSize_split (inv : List InventoryEntry) (maxSizeBytes : Nat)
    (protectedKeys : List Nat) (hnodup : (inv.map (·.key)).Nodup) :
    totalSize (evictRemoved inv maxSizeBytes protectedKeys) +
      totalSize (evictSurvivors inv maxSizeBytes protectedKeys) = totalSize inv := by
  have := totalSize_filter_add (fun e =>
    ((evictRemoved inv maxSizeBytes protectedKeys).map (·.key)).contains e.key) inv
  rw [totalSize_perm (filter_removedKeys_perm inv maxSizeBytes protectedKeys hnodup)] at this
  exact this

/-- C8: `evictLRU` is idempotent at or under budget — when the inventory's
total size is at or below `maxTotalBytes` the call is a no-op returning
`{evictedCount: 0, freedBytes: 0}`, and a second call issued right after any
call (in particular after a successful eviction) returns
`{evictedCount: 0, freedBytes: 0}` and removes nothing. Inventory keys are
assumed distinct, as `AsyncStorage.getAllKeys` guarantees. -/
theorem evictLRU_idempotent (inv : List InventoryEntry) (maxSizeBytes : Nat)
    (protectedKeys : List Nat) (hnodup : (inv.map (·.key)).Nodup) :
    (totalSize inv ≤ maxSizeBytes →
      evictLRUCache inv maxSizeBytes protectedKeys = (⟨0, 0⟩, inv)) ∧
    evictLRUCache (evictLRUCache inv maxSizeBytes protectedKeys).2 maxSizeBytes
        protectedKeys =
      (⟨0, 0⟩, (evictLRUCache inv maxSizeBytes protectedKeys).2) := by
  have hunder : ∀ l : List InventoryEntry, totalSize l ≤ maxSizeBytes →
      evictLRUCache l maxSizeBytes protectedKeys = (⟨0, 0⟩, l) := by
    intro l hl
    simp only [evictLRUCache]
    rw [if_pos hl]
  refine ⟨hunder inv, ?_⟩
  by_cases h1 : totalSize inv ≤ maxSizeBytes
  · rw [hunder inv h1]
    exact hunder inv h1
  · have e1 := evictLRUCache_over inv maxSizeBytes protectedKeys (by omega)
    rw [e1]
    by_cases h2 : totalSize (evictSurvivors inv maxSizeBytes protectedKeys) ≤ maxSizeBytes
    · exact hunder _ h2
    · rcases evictTake_stop ((totalSize inv : Int) - (maxSizeBytes : Int))
          (sortByLastAccessed (evictableOf inv protectedKeys)) with hexh | hle
      · -- the evictable set was exhausted: nothing evictable survives,
        -- so the second call frees nothing and keeps the inventory.
        have hsplit := evict_totalSize_split inv maxSizeBytes protectedKeys hnodup
        have hev : evictableOf (evictSurvivors inv maxSizeBytes protectedKeys)
            protectedKeys = [] := by
          rw [evictableOf, List.filter_eq_nil_iff]
          intro e he habs
          obtain ⟨hein, hkeep⟩ := List.mem_filter.mp he
          have hevictable : e ∈ evictableOf inv protectedKeys :=
            List.mem_filter.mpr ⟨hein, habs⟩
          have hsorted : e ∈ sortByLastAccessed (evictableOf inv protectedKeys) := by
            rw [sortByLastAccessed]
            exact (List.mem_insertionSort lruLE).mpr hevictable
          have hrem : e ∈ evictRemoved inv maxSizeBytes protectedKeys := by
            rw [evictRemoved, hexh]
            exact hsorted
          have : ((evictRemoved inv maxSizeBytes protectedKeys).map (·.key)).contains
              e.key = true :=
            (natList_contains_iff _ _).mpr (List.mem_map_of_mem (·.key) hrem)
          rw [this] at hkeep
          simp at hkeep
        simp only [evictLRUCache]
        rw [if_neg h2, hev]
        have : evictTake
            ((totalSize (evictSurvivors inv maxSizeBytes protectedKeys) : Int) -
              (maxSizeBytes : Int)) (sortByLastAccessed []) = [] := rfl
        rw [this]
        simp [totalSize, List.filter_eq_self]
      · -- the loop stopped because it reached budget: the survivors are
        -- within budget, contradicting h2.
        exfalso
        have hsplit := evict_totalSize_split inv maxSizeBytes protectedKeys hnodup
        rw [evictRemoved] at hsplit
        omega

/-- Witness for C8 on the C1 scenario (keys 1, 2, 3, sizes 10, 20, 5, key 3
protected, budget 15): after the first eviction leaves only entry 3, the
immediate second call returns `{evictedCount: 0, freedBytes: 0}` and keeps
the inventory unchanged. -/
theorem evictLRU_idempotent_witness :
    ((([⟨1, 10, 1, 0⟩, ⟨2, 20, 2, 0⟩, ⟨3, 5, 3, 0⟩] : List InventoryEntry).map
        (fun e => e.key)).Nodup) ∧
    ((totalSize [⟨1, 10, 1, 0⟩, ⟨2, 20, 2, 0⟩, ⟨3, 5, 3, 0⟩] ≤ 15 →
      evictLRUCache [⟨1, 10, 1, 0⟩, ⟨2, 20, 2, 0⟩, ⟨3, 5, 3, 0⟩] 15 [3] =
        (⟨0, 0⟩, [⟨1, 10, 1, 0⟩, ⟨2, 20, 2, 0⟩, ⟨3, 5, 3, 0⟩])) ∧
    evictLRUCache
        (evictLRUCache [⟨1, 10, 1, 0⟩, ⟨2, 20, 2, 0⟩, ⟨3, 5, 3, 0⟩] 15 [3]).2 15 [3] =
      (⟨0, 0⟩, (evictLRUCache [⟨1, 10, 1, 0⟩, ⟨2, 20, 2, 0⟩, ⟨3, 5, 3, 0⟩] 15 [3]).2)) :=
  ⟨by decide, evictLRU_idempotent [⟨1, 10, 1, 0⟩, ⟨2, 20, 2, 0⟩, ⟨3, 5, 3, 0⟩] 15 [3]
    (by decide)⟩

/-- C3 fails on the code: from the valid state with queue `[10, 20]` and
current index `1`, `removeFromQueue(1)` (removing the currently playing last
track) leaves `queueIndex = 1` on the one-element queue `[10]` — out of
range — and from queue `[10]` at index `0`, `removeFromQueue(0)` empties the
queue yet leaves `currentTrack` set; the other session operations are meant
to keep the invariant (`removeFromQueue` itself adjusts the index in the
`index < queueIndex` case), so this is a slip in the remove-current-track
branch. -/
theorem sessionRemoveFromQueue_breaks_invariant :
    queueInvariant ⟨some 20, [10, 20], 1, true, false, 0, 0, .off, false⟩ ∧
    ¬ queueInvariant
      (sessionRemoveFromQueue ⟨some 20, [10, 20], 1, true, false, 0, 0, .off, false⟩ 1) ∧
    sessionRemoveFromQueue ⟨some 20, [10, 20], 1, true, false, 0, 0, .off, false⟩ 1 =
      ⟨some 20, [10], 1, false, false, 0, 0, .off, false⟩ ∧
    queueInvariant ⟨some 10, [10], 0, true, false, 0, 0, .off, false⟩ ∧
    (sessionRemoveFromQueue ⟨some 10, [10], 0, true, false, 0, 0, .off, false⟩ 0).queue
      = [] ∧
    (sessionRemoveFromQueue ⟨some 10, [10], 0, true, false, 0, 0, .off, false⟩ 0).currentTrack
      = some 10 := by
  decide

/-- Counterexample to C7: `clearQueue()` does not reset `position` and
`duration` — from a state at position 42 of a 100-second track, clearing
leaves `position = 42` and `duration = 100`. -/
theorem clearQueue_keeps_position_counterexample :
    (clearQueueSession ⟨some 7, [7], 0, true, false, 42, 100, .off, false⟩).position = 42 ∧
    (clearQueueSession ⟨some 7, [7], 0, true, false, 42, 100, .off, false⟩).duration = 100 ∧
    ((42 : Int) ≠ 0 ∧ (100 : Int) ≠ 0) := by
  decide

/-- C7 amended: `clear()` pauses playback, empties the queue and resets
`currentIndex` and `currentTrack` to their empty-state values, but leaves
`position` and `duration` (and every other session field) unchanged. -/
theorem clearQueue_spec (s : PlayerState) :
    (clearQueueSession s).isPlaying = false ∧
    (clearQueueSession s).queue = [] ∧
    (clearQueueSession s).queueIndex = 0 ∧
    (clearQueueSession s).currentTrack = none ∧
    (clearQueueSession s).position = s.position ∧
    (clearQueueSession s).duration = s.duration ∧
    (clearQueueSession s).isLoading = s.isLoading ∧
    (clearQueueSession s).repeatMode = s.repeatMode ∧
    (clearQueueSession s).shuffleEnabled = s.shuffleEnabled :=
  ⟨rfl, rfl, rfl, rfl, rfl, rfl, rfl, rfl, rfl⟩

/-- One add keeps the history within the 50-entry bound. -/
theorem addToRecentlyPlayed_length (st : List RecentTrack) (track : RecentTrack)
    (now : Int) :
    (addToRecentlyPlayed st track now).length ≤ MAX_RECENT_TRACKS := by
  rw [addToRecentlyPlayed]
  exact List.length_take_le _ _

/-- One add keeps the track identities duplicate-free. -/
theorem addToRecentlyPlayed_nodup (st : List RecentTrack) (track : RecentTrack)
    (now : Int) (h : (st.map (fun t => t.track_id)).Nodup) :
    ((addToRecentlyPlayed st track now).map (fun t => t.track_id)).Nodup := by
  rw [addToRecentlyPlayed, List.map_take]
  apply List.Nodup.sublist (List.take_sublist _ _)
  rw [List.map_cons, List.nodup_cons]
  constructor
  · intro hmem
    obtain ⟨t, ht, htk⟩ := List.mem_map.mp hmem
    have := (List.mem_filter.mp ht).2
    simp only [bne_iff_ne, ne_eq] at this
    exact this htk
  · exact List.Nodup.sublist ((List.filter_sublist st).map _) h

/-- Iterating adds from the empty history preserves the bound and the
identity-dedup invariant. -/
theorem recentlyPlayed_fold_invariant (calls : List (RecentTrack × Int)) :
    ∀ st : List RecentTrack, (st.map (fun t => t.track_id)).Nodup →
      st.length ≤ MAX_RECENT_TRACKS →
      ((calls.foldl (fun acc c => addToRecentlyPlayed acc c.1 c.2) st).map
          (fun t => t.track_id)).Nodup ∧
        (calls.foldl (fun acc c => addToRecentlyPlayed acc c.1 c.2) st).length
          ≤ MAX_RECENT_TRACKS := by
  induction calls with
  | nil => exact fun st h1 h2 => ⟨h1, h2⟩
  | cons c cs ih =>
      intro st h1 _
      exact ih _ (addToRecentlyPlayed_nodup st c.1 c.2 h1)
        (addToRecentlyPlayed_length st c.1 c.2)

/-- C10: the recently-played list stays bounded by
`MAX_RECENT_TRACKS = 50`, ordered most-recent-first and de-duplicated by
track identity — one add puts the track (stamped with `now`) in front, the
remainder is the previous history minus that identity (truncated to 49), a
history sorted most-recent-first stays so, and any sequence of adds from the
empty history keeps the bound and the dedup invariant. -/
theorem addToRecentlyPlayed_spec (st : List RecentTrack) (track : RecentTrack)
    (now : Int) (calls : List (RecentTrack × Int))
    (hnodup : (st.map (fun t => t.track_id)).Nodup)
    (hsorted : List.Sorted recentOrder st)
    (hle : ∀ t ∈ st, t.played_at ≤ now) :
    (addToRecentlyPlayed st track now).length ≤ MAX_RECENT_TRACKS ∧
    ((addToRecentlyPlayed st track now).map (fun t => t.track_id)).Nodup ∧
    (addToRecentlyPlayed st track now).head? = some { track with played_at := now } ∧
    (addToRecentlyPlayed st track now).tail =
      (st.filter (fun t => t.track_id != track.track_id)).take (MAX_RECENT_TRACKS - 1) ∧
    List.Sorted recentOrder (addToRecentlyPlayed st track now) ∧
    ((calls.foldl (fun acc c => addToRecentlyPlayed acc c.1 c.2) []).length
        ≤ MAX_RECENT_TRACKS ∧
      ((calls.foldl (fun acc c => addToRecentlyPlayed acc c.1 c.2) []).map
        (fun t => t.track_id)).Nodup) := by
  refine ⟨addToRecentlyPlayed_length st track now, addToRecentlyPlayed_nodup st track now hnodup,
    rfl, rfl, ?_, ?_⟩
  · rw [addToRecentlyPlayed]
    apply List.Pairwise.sublist (List.take_sublist _ _)
    rw [List.pairwise_cons]
    constructor
    · intro t ht
      have := (List.mem_filter.mp ht).1
      exact hle t this
    · exact List.Pairwise.sublist (List.filter_sublist st) hsorted
  · have := recentlyPlayed_fold_invariant calls [] (by simp) (by simp [MAX_RECENT_TRACKS])
    exact ⟨this.2, this.1⟩

/-- Witness for C10: history `[(id 1 at t=5), (id 2 at t=4)]`, re-playing
track id 1 at `t = 10` moves it (restamped) to the front without a
duplicate, and the three-call sequence from the empty history stays bounded
and duplicate-free. -/
theorem addToRecentlyPlayed_spec_witness :
    ((([⟨1, 0, 5⟩, ⟨2, 0, 4⟩] : List RecentTrack).map (fun t => t.track_id)).Nodup ∧
      List.Sorted recentOrder [⟨1, 0, 5⟩, ⟨2, 0, 4⟩] ∧
      (∀ t ∈ ([⟨1, 0, 5⟩, ⟨2, 0, 4⟩] : List RecentTrack), t.played_at ≤ 10)) ∧
    ((addToRecentlyPlayed [⟨1, 0, 5⟩, ⟨2, 0, 4⟩] ⟨1, 9, 0⟩ 10).length
        ≤ MAX_RECENT_TRACKS ∧
    ((addToRecentlyPlayed [⟨1, 0, 5⟩, ⟨2, 0, 4⟩] ⟨1, 9, 0⟩ 10).map
        (fun t => t.track_id)).Nodup ∧
    (addToRecentlyPlayed [⟨1, 0, 5⟩, ⟨2, 0, 4⟩] ⟨1, 9, 0⟩ 10).head? = some ⟨1, 9, 10⟩ ∧
    (addToRecentlyPlayed [⟨1, 0, 5⟩, ⟨2, 0, 4⟩] ⟨1, 9, 0⟩ 10).tail =
      (([⟨1, 0, 5⟩, ⟨2, 0, 4⟩] : List RecentTrack).filter
        (fun t => t.track_id != 1)).take (MAX_RECENT_TRACKS - 1) ∧
    List.Sorted recentOrder (addToRecentlyPlayed [⟨1, 0, 5⟩, ⟨2, 0, 4⟩] ⟨1, 9, 0⟩ 10) ∧
    ((([(⟨1, 0, 0⟩, 1), (⟨2, 0, 0⟩, 2), (⟨1, 0, 0⟩, 3)] :
          List (RecentTrack × Int)).foldl
        (fun acc c => addToRecentlyPlayed acc c.1 c.2) []).length ≤ MAX_RECENT_TRACKS ∧
      ((([(⟨1, 0, 0⟩, 1), (⟨2, 0, 0⟩, 2), (⟨1, 0, 0⟩, 3)] :
          List (RecentTrack × Int)).foldl
        (fun acc c => addToRecentlyPlayed acc c.1 c.2) []).map
        (fun t => t.track_id)).Nodup)) :=
  ⟨⟨by decide, by decide, by decide⟩,
    addToRecentlyPlayed_spec [⟨1, 0, 5⟩, ⟨2, 0, 4⟩] ⟨1, 9, 0⟩ 10
      [(⟨1, 0, 0⟩, 1), (⟨2, 0, 0⟩, 2), (⟨1, 0, 0⟩, 3)]
      (by decide) (by decide) (by decide)⟩

end MusicApp
